import Mathlib

/-!
# Verification of the Hash_Function tree-reduction SHA-256 variant

Shallow embedding of `src/backend/sha256.py`, `src/backend/padding.py`
(and the duplicated `sha256_pad` in `src/padding.py`) of the
PhongCT1105/Hash_Function repository.

Conventions of the embedding:
* Python `bytes` are `List Nat` (each entry a byte value `< 256`);
  Python `list[int]` chaining values are `List Nat` of 32-bit words.
* Python's `& 0xFFFFFFFF` masking is translated literally as `&&& 0xFFFFFFFF`;
  the lemma `mask32_eq` identifies it with `% 2 ^ 32`.
* Python's `~e` (two's complement over unbounded ints) applied under a
  `& g` with 32-bit operands is translated as `(e ^^^ 0xFFFFFFFF) &&& g`,
  which agrees with CPython for the 32-bit-bounded register values the code
  manipulates.
* `struct.pack(">8I", *h)` / `struct.unpack(">8I"/">16L", b)` become
  `words_to_bytes` / `bytes_to_words` (big-endian, 4 bytes per word).
* The `ThreadPoolExecutor` fan-out/fan-in used by the source preserves input
  order (futures are collected in submission order), so it is modelled as the
  order-preserving `List.map` / `process_blocks`.
* The `while len(hash_outputs) > 1` loops are modelled by structurally
  recursive loops with fuel `hash_outputs.length`; the fuel is provably
  sufficient because each round strictly shrinks the list (see the
  termination theorems below), and running out of fuel — like the
  `raise ValueError` branches and out-of-range indexing — yields `none`.
-/

/-- Mask constant (32 bits) used throughout the Python source (`0xFFFFFFFF`). -/
def mask32 : Nat := 0xFFFFFFFF

/-- Source `src/backend/sha256.py::right_rotate` (identical copy in `padding.py`):
`((value >> bits) | (value << (32 - bits))) & 0xFFFFFFFF`. -/
def right_rotate (value : Nat) (bits : Nat) : Nat :=
  ((value >>> bits) ||| (value <<< (32 - bits))) &&& mask32

/-- Source `src/backend/sha256.py::K` — the 64 SHA-256 round constants,
hex in the source and written here in decimal, same values in the same
order (0x428a2f98 = 1116352408, …, 0xc67178f2 = 3329325298). -/
def K : List Nat := [
  1116352408, 1899447441, 3049323471, 3921009573, 961987163,
  1508970993, 2453635748, 2870763221, 3624381080, 310598401,
  607225278, 1426881987, 1925078388, 2162078206, 2614888103,
  3248222580, 3835390401, 4022224774, 264347078, 604807628,
  770255983, 1249150122, 1555081692, 1996064986, 2554220882,
  2821834349, 2952996808, 3210313671, 3336571891, 3584528711,
  113926993, 338241895, 666307205, 773529912, 1294757372,
  1396182291, 1695183700, 1986661051, 2177026350, 2456956037,
  2730485921, 2820302411, 3259730800, 3345764771, 3516065817,
  3600352804, 4094571909, 275423344, 430227734, 506948616,
  659060556, 883997877, 958139571, 1322822218, 1537002063,
  1747873779, 1955562222, 2024104815, 2227730452, 2361852424,
  2428436474, 2756734187, 3204031479, 3329325298]

/-- The standard SHA-256 initial chaining value, `default_iv` in both
`src/backend/sha256.py` and `src/backend/padding.py`, hex in the source and
decimal here (0x6a09e667 = 1779033703, …, 0x5be0cd19 = 1541459225). -/
def default_iv : List Nat := [
  1779033703, 3144134277, 1013904242, 2773480762,
  1359893119, 2600822924, 528734635, 1541459225]

/-- Encoding `struct.pack('>Q', n)`: 8 big-endian bytes of `n` (the source always calls
it with `n = 8 * len(message)`; the encoding reads the low 64 bits of `n`). -/
def pack_u64 (n : Nat) : List Nat :=
  [n / 2 ^ 56 % 256, n / 2 ^ 48 % 256, n / 2 ^ 40 % 256, n / 2 ^ 32 % 256,
   n / 2 ^ 24 % 256, n / 2 ^ 16 % 256, n / 2 ^ 8 % 256, n % 256]

/-- The zero-byte count `(56 - (n % 64)) % 64` of `sha256_pad`, where `n` is
the length after the `0x80` byte was appended.  Python's `%` on a possibly
negative left operand is Int.emod, hence the detour through `Int`. -/
def pad_zero_count (n : Nat) : Nat := ((56 - ((n : Int) % 64)) % 64).toNat

/-- Source `src/backend/sha256.py::sha256_pad` (identical copies in both other
padding files): append `0x80`, then `(56 - len % 64) % 64` zero bytes,
then the original bit length as 8 big-endian bytes. -/
def sha256_pad (message : List Nat) : List Nat :=
  let m_len := message.length * 8
  let message1 := message ++ [0x80]
  let message2 := message1 ++ List.replicate (pad_zero_count message1.length) 0
  message2 ++ pack_u64 m_len

/-- Source `src/backend/sha256.py::split_blocks`: the comprehension
`[padded[i:i+64] for i in range(0, len(padded), 64)]`. -/
def split_blocks (padded_message : List Nat) : List (List Nat) :=
  (List.range ((padded_message.length + 63) / 64)).map
    (fun i => ((padded_message.drop (64 * i)).take 64))

/-- Decoding in the style of `struct.unpack('>16L', b)` and `struct.unpack('>8I', b)`: consume the byte list
four bytes at a time into big-endian 32-bit words (a trailing fragment of
fewer than four bytes cannot occur at the call sites, which always pass
a multiple of four bytes). -/
def bytes_to_words : List Nat → List Nat
  | b0 :: b1 :: b2 :: b3 :: rest =>
      (((b0 * 256 + b1) * 256 + b2) * 256 + b3) :: bytes_to_words rest
  | _ => []

/-- Encoding `struct.pack(">8I", *h)`: each 32-bit word becomes 4 big-endian bytes. -/
def words_to_bytes : List Nat → List Nat
  | [] => []
  | w :: rest =>
      w / 2 ^ 24 % 256 :: w / 2 ^ 16 % 256 :: w / 2 ^ 8 % 256 :: w % 256 ::
        words_to_bytes rest

/-- The eight working registers `a, b, c, d, e, f, g, h` of the compression
loop in `sha256_compress_block`. -/
structure Regs where
  a : Nat
  b : Nat
  c : Nat
  d : Nat
  e : Nat
  f : Nat
  g : Nat
  h : Nat
deriving DecidableEq

/-- One step of the schedule-extension loop of `sha256_compress_block`:
with `i = len(W)` (the index about to be filled),
`W.append((W[i-16] + s0 + W[i-7] + s1) & 0xFFFFFFFF)` where
`s0 = rotr(W[i-15],7) ^ rotr(W[i-15],18) ^ (W[i-15] >> 3)` and
`s1 = rotr(W[i-2],17) ^ rotr(W[i-2],19) ^ (W[i-2] >> 10)`. -/
def next_w (W : List Nat) : Nat :=
  let i := W.length
  let s0 := right_rotate (W.getD (i - 15) 0) 7 ^^^ right_rotate (W.getD (i - 15) 0) 18 ^^^
    (W.getD (i - 15) 0 >>> 3)
  let s1 := right_rotate (W.getD (i - 2) 0) 17 ^^^ right_rotate (W.getD (i - 2) 0) 19 ^^^
    (W.getD (i - 2) 0 >>> 10)
  (W.getD (i - 16) 0 + s0 + W.getD (i - 7) 0 + s1) &&& mask32

/-- The `for i in range(16, 64)` schedule-extension loop, as `n` applications
of `next_w` appended to the word list. -/
def extend_schedule : List Nat → Nat → List Nat
  | W, 0 => W
  | W, n + 1 => extend_schedule (W ++ [next_w W]) n

/-- The body of the 64-round compression loop of `sha256_compress_block`,
translated line by line (with `~e & g` rendered as
`(e ^^^ 0xFFFFFFFF) &&& g`, see the file header). -/
def round_step (r : Regs) (ki : Nat) (wi : Nat) : Regs :=
  let S1 := right_rotate r.e 6 ^^^ right_rotate r.e 11 ^^^ right_rotate r.e 25
  let ch := (r.e &&& r.f) ^^^ ((r.e ^^^ mask32) &&& r.g)
  let temp1 := (r.h + S1 + ch + ki + wi) &&& mask32
  let S0 := right_rotate r.a 2 ^^^ right_rotate r.a 13 ^^^ right_rotate r.a 22
  let maj := (r.a &&& r.b) ^^^ (r.a &&& r.c) ^^^ (r.b &&& r.c)
  let temp2 := (S0 + maj) &&& mask32
  { a := (temp1 + temp2) &&& mask32, b := r.a, c := r.b, d := r.c,
    e := (r.d + temp1) &&& mask32, f := r.e, g := r.f, h := r.g }

/-- Source `src/backend/sha256.py::sha256_compress_block` (identical copy in
`padding.py`).  The Python asserts `len(block) == 64` and `len(iv) == 8`;
the embedding is total and the theorems below carry those lengths as
hypotheses. -/
def sha256_compress_block (block : List Nat) (iv : List Nat) : List Nat :=
  let W := extend_schedule (bytes_to_words block) 48
  let r0 : Regs :=
    { a := iv.getD 0 0, b := iv.getD 1 0, c := iv.getD 2 0, d := iv.getD 3 0,
      e := iv.getD 4 0, f := iv.getD 5 0, g := iv.getD 6 0, h := iv.getD 7 0 }
  let rF := (List.range 64).foldl (fun r i => round_step r (K.getD i 0) (W.getD i 0)) r0
  List.zipWith (fun x val => (x + val) &&& mask32) iv
    [rF.a, rF.b, rF.c, rF.d, rF.e, rF.f, rF.g, rF.h]

/-- Source `src/backend/sha256.py::reduce_iv` (identical copy in `padding.py`):
`[(iv[i] + (block1[i] ^ block2[i])) & 0xFFFFFFFF for i in range(8)]`. -/
def reduce_iv (iv block1 block2 : List Nat) : List Nat :=
  (List.range 8).map
    (fun i => (iv.getD i 0 + (block1.getD i 0 ^^^ block2.getD i 0)) &&& mask32)

/-- The pairing step shared by the two `combine_hash_blocks` variants:
walk the list two at a time; a full pair is packed into one 64-byte block,
an odd leftover is packed alone into a 32-byte block. -/
def pair_blocks : List (List Nat) → List (List Nat)
  | b1 :: b2 :: rest => (words_to_bytes b1 ++ words_to_bytes b2) :: pair_blocks rest
  | [b] => [words_to_bytes b]
  | [] => []

/-- Source `src/backend/sha256.py::combine_hash_blocks` computes `pair_ivs`:
one `reduce_iv` per full adjacent pair, in order. -/
def pair_ivs (iv : List Nat) : List (List Nat) → List (List Nat)
  | b1 :: b2 :: rest => reduce_iv iv b1 b2 :: pair_ivs iv rest
  | _ => []

/-- The per-block dispatch of the reduction rounds (both files):
a 64-byte block is compressed with the round IV, a 32-byte block is
unpacked as-is, anything else raises `ValueError` (modelled as `none`). -/
def process_block (blk : List Nat) (iv : List Nat) : Option (List Nat) :=
  if blk.length = 64 then some (sha256_compress_block blk iv)
  else if blk.length = 32 then some (bytes_to_words blk)
  else none

/-- The order-preserving fan-out/fan-in over the round's block list:
process every block, failing (Python: raising) if any block is malformed. -/
def process_blocks : List (List Nat) → List Nat → Option (List (List Nat))
  | [], _ => some []
  | blk :: rest, iv =>
    match process_block blk iv, process_blocks rest iv with
    | some h, some r => some (h :: r)
    | _, _ => none

namespace sha256

/-- Source `src/backend/sha256.py::combine_hash_blocks`: pair adjacent elements of
`hash_blocks` itself — the comment in the source says "Instead of shifting,
iterate over pairs" — and take the first pair's `reduce_iv` (or keep `iv`
when no pair exists). -/
def combine_hash_blocks (hash_blocks : List (List Nat)) (iv : List Nat) :
    List (List Nat) × List Nat :=
  (pair_blocks hash_blocks, (pair_ivs iv hash_blocks).headD iv)

/-- One round of `tree_reduce_parallel_trace`: regroup, then process every
regrouped block with the round's derived IV. -/
def reduce_round (hs : List (List Nat)) (iv : List Nat) :
    Option (List (List Nat) × List Nat) :=
  let p := combine_hash_blocks hs iv
  match process_blocks p.1 p.2 with
  | none => none
  | some new_hs => some (new_hs, p.2)

/-- One entry of the `rounds` list built by `tree_reduce_parallel_trace`
(hex-encoded in the source; kept as raw bytes/words here). -/
structure RoundInfo where
  round : Nat
  inputHashOutputs : List (List Nat)
  computedNewIV : List Nat
  newBlocks : List (List Nat)
  outputHashOutputs : List (List Nat)
deriving DecidableEq

/-- The `while len(hash_outputs) > 1` loop of `tree_reduce_parallel_trace`,
with fuel (sufficient fuel is provided by the caller; see the termination
theorem).  Returns the surviving value and the recorded rounds. -/
def reduce_loop_trace (fuel : Nat) (hs : List (List Nat)) (iv : List Nat)
    (round_number : Nat) : Option (List Nat × List RoundInfo) :=
  if hs.length ≤ 1 then (hs.head?).map (fun h => (h, []))
  else
    match fuel with
    | 0 => none
    | fuel' + 1 =>
      let p := combine_hash_blocks hs iv
      match process_blocks p.1 p.2 with
      | none => none
      | some new_hs =>
        match reduce_loop_trace fuel' new_hs p.2 (round_number + 1) with
        | none => none
        | some (final, rest) =>
          some (final,
            { round := round_number, inputHashOutputs := hs, computedNewIV := p.2,
              newBlocks := p.1, outputHashOutputs := new_hs } :: rest)

/-- The result dictionary of `tree_reduce_parallel_trace` (string-presentation
fields such as `originalMessage` and hex encodings are kept as raw bytes). -/
structure TraceResult where
  padded : List Nat
  blocks : List (List Nat)
  initialHashOutputs : List (List Nat)
  rounds : List RoundInfo
  finalDigest : List Nat
deriving DecidableEq

/-- Source `src/backend/sha256.py::tree_reduce_parallel_trace`.  Stage 1 maps
`sha256_compress_block · iv` over the padded blocks (the thread pool
preserves submission order); the reduction loop then runs to a single
value.  `none` models the `ValueError` / indexing failure paths. -/
def tree_reduce_parallel_trace (message : List Nat) (iv : List Nat) :
    Option TraceResult :=
  let padded := sha256_pad message
  let blocks := split_blocks padded
  let initialHashOutputs := blocks.map (fun b => sha256_compress_block b iv)
  match reduce_loop_trace initialHashOutputs.length initialHashOutputs iv 0 with
  | none => none
  | some (final, rounds) =>
    some { padded := padded, blocks := blocks,
           initialHashOutputs := initialHashOutputs, rounds := rounds,
           finalDigest := words_to_bytes final }

end sha256

namespace padding

/-- Source `src/backend/padding.py::combine_hash_blocks`: derive the new IV from the
first two elements (when they exist), then "shift the hash block array to
the right by one" (`shifted = hash_blocks[1:]`) and pair the shifted list. -/
def combine_hash_blocks (hash_blocks : List (List Nat)) (iv : List Nat) :
    List (List Nat) × List Nat :=
  let new_iv :=
    if 2 ≤ hash_blocks.length then
      reduce_iv iv (hash_blocks.getD 0 []) (hash_blocks.getD 1 [])
    else iv
  (pair_blocks hash_blocks.tail, new_iv)

/-- One round of `tree_reduce_parallel`: regroup (with the shift), then
process every regrouped block with the round's derived IV. -/
def reduce_round (hs : List (List Nat)) (iv : List Nat) :
    Option (List (List Nat) × List Nat) :=
  let p := combine_hash_blocks hs iv
  match process_blocks p.1 p.2 with
  | none => none
  | some new_hs => some (new_hs, p.2)

/-- The `while len(hash_outputs) > 1` loop of `tree_reduce_parallel`,
with fuel (sufficient fuel is provided by the caller). -/
def reduce_loop (fuel : Nat) (hs : List (List Nat)) (iv : List Nat) :
    Option (List Nat) :=
  if hs.length ≤ 1 then hs.head?
  else
    match fuel with
    | 0 => none
    | fuel' + 1 =>
      match reduce_round hs iv with
      | none => none
      | some (new_hs, new_iv) => reduce_loop fuel' new_hs new_iv

/-- Source `src/backend/padding.py::tree_reduce_parallel`: stage 1, the reduction
loop, and the final `struct.pack(">8I", *hash_outputs[0])`. -/
def tree_reduce_parallel (message : List Nat) (iv : List Nat) :
    Option (List Nat) :=
  let padded := sha256_pad message
  let blocks := split_blocks padded
  let hash_outputs := blocks.map (fun b => sha256_compress_block b iv)
  (reduce_loop hash_outputs.length hash_outputs iv).map words_to_bytes

end padding

/-! ## Basic lemmas about the byte/word codecs and masking -/

theorem mask32_eq (x : Nat) : x &&& mask32 = x % 2 ^ 32 := by
  have h := Nat.and_pow_two_sub_one_eq_mod x 32
  norm_num at h
  simpa [mask32] using h

theorem mask32_lt (x : Nat) : x &&& mask32 < 2 ^ 32 := by
  rw [mask32_eq]
  exact Nat.mod_lt _ (by norm_num)

theorem words_to_bytes_length (l : List Nat) :
    (words_to_bytes l).length = 4 * l.length := by
  induction l with
  | nil => simp [words_to_bytes]
  | cons w rest ih => simp [words_to_bytes, ih]; ring

theorem words_to_bytes_lt (l : List Nat) :
    ∀ b ∈ words_to_bytes l, b < 256 := by
  induction l with
  | nil => simp [words_to_bytes]
  | cons w rest ih =>
    intro b hb
    simp only [words_to_bytes, List.mem_cons] at hb
    rcases hb with h | h | h | h | h
    · omega
    · omega
    · omega
    · omega
    · exact ih b h

theorem bytes_to_words_length (l : List Nat) :
    (bytes_to_words l).length = l.length / 4 := by
  induction l using bytes_to_words.induct with
  | case1 b0 b1 b2 b3 rest ih => simp [bytes_to_words, ih]; omega
  | case2 l h => cases l with
    | nil => simp [bytes_to_words]
    | cons a t => cases t with
      | nil => simp [bytes_to_words]
      | cons a2 t2 => cases t2 with
        | nil => simp [bytes_to_words]
        | cons a3 t3 =>
          cases t3 with
          | nil => simp [bytes_to_words]
          | cons a4 t4 => exact absurd rfl (h a a2 a3 a4 t4)

theorem bytes_to_words_lt (l : List Nat) (hl : ∀ b ∈ l, b < 256) :
    ∀ w ∈ bytes_to_words l, w < 2 ^ 32 := by
  induction l using bytes_to_words.induct with
  | case1 b0 b1 b2 b3 rest ih =>
    intro w hw
    simp only [bytes_to_words, List.mem_cons] at hw
    rcases hw with h | h
    · have h0 := hl b0 (by simp)
      have h1 := hl b1 (by simp)
      have h2 := hl b2 (by simp)
      have h3 := hl b3 (by simp)
      omega
    · exact ih (fun b hb => hl b (by simp [hb])) w h
  | case2 l h => cases l with
    | nil => simp [bytes_to_words]
    | cons a t => cases t with
      | nil => simp [bytes_to_words]
      | cons a2 t2 => cases t2 with
        | nil => simp [bytes_to_words]
        | cons a3 t3 =>
          cases t3 with
          | nil => simp [bytes_to_words]
          | cons a4 t4 => exact absurd rfl (h a a2 a3 a4 t4)

theorem bytes_words_roundtrip (l : List Nat) (hl : ∀ w ∈ l, w < 2 ^ 32) :
    bytes_to_words (words_to_bytes l) = l := by
  induction l with
  | nil => simp [words_to_bytes, bytes_to_words]
  | cons w rest ih =>
    have hw : w < 2 ^ 32 := hl w (by simp)
    simp only [words_to_bytes, bytes_to_words, ih (fun x hx => hl x (by simp [hx]))]
    congr 1
    omega

/-! ## The chaining-value invariant -/

/-- A well-formed chaining value: exactly 8 words, each a 32-bit value.
Every chaining value produced by the source maintains this invariant. -/
def good_cv (h : List Nat) : Prop := h.length = 8 ∧ ∀ w ∈ h, w < 2 ^ 32

instance (h : List Nat) : Decidable (good_cv h) := by
  unfold good_cv
  infer_instance

theorem mem_zip_mask_lt :
    ∀ (l1 l2 : List Nat) w, w ∈ List.zipWith (fun x val => (x + val) &&& mask32) l1 l2 →
      w < 2 ^ 32 := by
  intro l1
  induction l1 with
  | nil => simp
  | cons x t ih =>
    intro l2 w hw
    cases l2 with
    | nil => simp at hw
    | cons y t2 =>
      simp only [List.zipWith_cons_cons, List.mem_cons] at hw
      rcases hw with h | h
      · rw [h]; exact mask32_lt _
      · exact ih t2 w h

theorem sha256_compress_block_length (block iv : List Nat) (hiv : iv.length = 8) :
    (sha256_compress_block block iv).length = 8 := by
  simp [sha256_compress_block, List.length_zipWith, hiv]

theorem sha256_compress_block_good (block iv : List Nat) (hiv : iv.length = 8) :
    good_cv (sha256_compress_block block iv) := by
  refine ⟨sha256_compress_block_length block iv hiv, ?_⟩
  intro w hw
  exact mem_zip_mask_lt _ _ w hw

theorem reduce_iv_good (iv b1 b2 : List Nat) : good_cv (reduce_iv iv b1 b2) := by
  constructor
  · simp [reduce_iv]
  · intro w hw
    simp only [reduce_iv, List.mem_map] at hw
    obtain ⟨i, _, hmi⟩ := hw
    rw [← hmi]
    exact mask32_lt _

theorem words_to_bytes_32 (h : List Nat) (hg : good_cv h) :
    (words_to_bytes h).length = 32 := by
  rw [words_to_bytes_length, hg.1]

theorem process_block_passthrough (h iv : List Nat) (hg : good_cv h) :
    process_block (words_to_bytes h) iv = some h := by
  have h32 := words_to_bytes_32 h hg
  rw [process_block, if_neg (by omega), if_pos h32,
    bytes_words_roundtrip h hg.2]

/-! ## Lemmas about the pairing step -/

theorem pair_blocks_length (l : List (List Nat)) :
    (pair_blocks l).length = (l.length + 1) / 2 := by
  induction l using pair_blocks.induct with
  | case1 b1 b2 rest ih => simp [pair_blocks, ih]; omega
  | case2 b => simp [pair_blocks]
  | case3 => simp [pair_blocks]

theorem pair_blocks_getD (l : List (List Nat)) :
    ∀ k, 2 * k + 1 < l.length →
      (pair_blocks l).getD k [] =
        words_to_bytes (l.getD (2 * k) []) ++ words_to_bytes (l.getD (2 * k + 1) []) := by
  induction l using pair_blocks.induct with
  | case1 b1 b2 rest ih =>
    intro k hk
    cases k with
    | zero => simp [pair_blocks]
    | succ k' =>
      have h1 : 2 * (k' + 1) = 2 * k' + 1 + 1 := by ring
      have h2 : 2 * (k' + 1) + 1 = 2 * k' + 1 + 1 + 1 := by ring
      simp only [pair_blocks, List.getD_cons_succ, h1, h2]
      exact ih k' (by simp at hk; omega)
  | case2 b => intro k hk; simp at hk
  | case3 => intro k hk; simp at hk

theorem pair_blocks_last (l : List (List Nat)) (hodd : l.length % 2 = 1) :
    (pair_blocks l).getD (l.length / 2) [] = words_to_bytes (l.getD (l.length - 1) []) := by
  induction l using pair_blocks.induct with
  | case1 b1 b2 rest ih =>
    have hrodd : rest.length % 2 = 1 := by simp at hodd ⊢; omega
    have hrpos : 1 ≤ rest.length := by omega
    have h1 : (b1 :: b2 :: rest).length / 2 = rest.length / 2 + 1 := by simp; omega
    have h2 : (b1 :: b2 :: rest).length - 1 = rest.length - 1 + 1 + 1 := by simp; omega
    simp only [pair_blocks, h1, h2, List.getD_cons_succ]
    exact ih hrodd
  | case2 b => simp [pair_blocks]
  | case3 => simp at hodd

theorem pair_blocks_len64or32 (l : List (List Nat)) (hl : ∀ h ∈ l, good_cv h) :
    ∀ blk ∈ pair_blocks l, blk.length = 64 ∨ blk.length = 32 := by
  induction l using pair_blocks.induct with
  | case1 b1 b2 rest ih =>
    intro blk hblk
    simp only [pair_blocks, List.mem_cons] at hblk
    rcases hblk with h | h
    · left
      rw [h]
      have g1 := (hl b1 (by simp)).1
      have g2 := (hl b2 (by simp)).1
      simp [words_to_bytes_length, g1, g2]
    · exact ih (fun x hx => hl x (by simp [hx])) blk h
  | case2 b =>
    intro blk hblk
    simp only [pair_blocks, List.mem_singleton] at hblk
    right
    rw [hblk, words_to_bytes_length, (hl b (by simp)).1]
  | case3 => simp [pair_blocks]

theorem pair_blocks_bytes_lt (l : List (List Nat)) :
    ∀ blk ∈ pair_blocks l, ∀ b ∈ blk, b < 256 := by
  induction l using pair_blocks.induct with
  | case1 b1 b2 rest ih =>
    intro blk hblk b hb
    simp only [pair_blocks, List.mem_cons] at hblk
    rcases hblk with h | h
    · rw [h] at hb
      rcases List.mem_append.mp hb with h2 | h2
      · exact words_to_bytes_lt b1 b h2
      · exact words_to_bytes_lt b2 b h2
    · exact ih blk h b hb
  | case2 b0 =>
    intro blk hblk b hb
    simp only [pair_blocks, List.mem_singleton] at hblk
    rw [hblk] at hb
    exact words_to_bytes_lt b0 b hb
  | case3 => simp [pair_blocks]

theorem pair_blocks_ne_nil (l : List (List Nat)) (hl : l ≠ []) :
    pair_blocks l ≠ [] := by
  match l with
  | b1 :: b2 :: rest => simp [pair_blocks]
  | [b] => simp [pair_blocks]
  | [] => exact absurd rfl hl

theorem pair_ivs_headD (iv : List Nat) (hs : List (List Nat)) (h2 : 2 ≤ hs.length) :
    (pair_ivs iv hs).headD iv = reduce_iv iv (hs.getD 0 []) (hs.getD 1 []) := by
  match hs with
  | b1 :: b2 :: rest => simp [pair_ivs]
  | [b] => simp at h2
  | [] => simp at h2

/-! ## Lemmas about the per-round block processing -/

theorem process_blocks_length (l : List (List Nat)) (iv : List Nat)
    (r : List (List Nat)) (h : process_blocks l iv = some r) :
    r.length = l.length := by
  induction l generalizing r with
  | nil => simp [process_blocks] at h; simp [← h]
  | cons blk rest ih =>
    simp only [process_blocks] at h
    cases hb : process_block blk iv with
    | none => rw [hb] at h; simp at h
    | some hh =>
      rw [hb] at h
      cases hr : process_blocks rest iv with
      | none => rw [hr] at h; simp at h
      | some rr =>
        rw [hr] at h
        simp at h
        rw [← h]
        simp [ih rr hr]

theorem process_blocks_isSome (l : List (List Nat)) (iv : List Nat)
    (h : ∀ blk ∈ l, blk.length = 64 ∨ blk.length = 32) :
    (process_blocks l iv).isSome := by
  induction l with
  | nil => simp [process_blocks]
  | cons blk rest ih =>
    have hb : (process_block blk iv).isSome := by
      rcases h blk (by simp) with h64 | h32
      · simp [process_block, h64]
      · simp [process_block, h32]
    have hr : (process_blocks rest iv).isSome := ih (fun b hbm => h b (by simp [hbm]))
    obtain ⟨x, hx⟩ := Option.isSome_iff_exists.mp hb
    obtain ⟨y, hy⟩ := Option.isSome_iff_exists.mp hr
    simp [process_blocks, hx, hy]

theorem process_blocks_mem (l : List (List Nat)) (iv : List Nat)
    (r : List (List Nat)) (h : process_blocks l iv = some r) :
    ∀ x ∈ r, ∃ blk ∈ l, process_block blk iv = some x := by
  induction l generalizing r with
  | nil => simp [process_blocks] at h; simp [h]
  | cons blk rest ih =>
    simp only [process_blocks] at h
    cases hb : process_block blk iv with
    | none => rw [hb] at h; simp at h
    | some hh =>
      rw [hb] at h
      cases hr : process_blocks rest iv with
      | none => rw [hr] at h; simp at h
      | some rr =>
        rw [hr] at h
        simp only [Option.some_inj] at h
        intro x hx
        rw [← h] at hx
        rcases List.mem_cons.mp hx with h1 | h1
        · exact ⟨blk, by simp, by rw [hb, h1]⟩
        · obtain ⟨b2, hb2, hp2⟩ := ih rr hr x h1
          exact ⟨b2, by simp [hb2], hp2⟩

theorem process_blocks_getD (l : List (List Nat)) (iv : List Nat)
    (r : List (List Nat)) (h : process_blocks l iv = some r) :
    ∀ k, k < l.length → process_block (l.getD k []) iv = some (r.getD k []) := by
  induction l generalizing r with
  | nil => simp
  | cons blk rest ih =>
    simp only [process_blocks] at h
    cases hb : process_block blk iv with
    | none => rw [hb] at h; simp at h
    | some hh =>
      rw [hb] at h
      cases hr : process_blocks rest iv with
      | none => rw [hr] at h; simp at h
      | some rr =>
        rw [hr] at h
        simp only [Option.some_inj] at h
        intro k hk
        cases k with
        | zero => simp [← h, hb]
        | succ k' =>
          simp only [← h, List.getD_cons_succ]
          exact ih rr hr k' (by simp at hk; omega)

theorem process_block_good (blk iv : List Nat) (hbytes : ∀ b ∈ blk, b < 256)
    (hiv : iv.length = 8) (x : List Nat) (h : process_block blk iv = some x) :
    good_cv x := by
  rw [process_block] at h
  by_cases h64 : blk.length = 64
  · rw [if_pos h64] at h
    simp only [Option.some_inj] at h
    rw [← h]
    exact sha256_compress_block_good blk iv hiv
  · rw [if_neg h64] at h
    by_cases h32 : blk.length = 32
    · rw [if_pos h32] at h
      simp only [Option.some_inj] at h
      rw [← h]
      constructor
      · rw [bytes_to_words_length, h32]
      · exact bytes_to_words_lt blk hbytes
    · rw [if_neg h32] at h
      simp at h

/-! ## Round-level lemmas for the two reduction controllers -/

namespace sha256

theorem trace_combine_iv_length (hs : List (List Nat)) (iv : List Nat) (hiv : iv.length = 8) :
    ((combine_hash_blocks hs iv).2).length = 8 := by
  match hs with
  | b1 :: b2 :: rest =>
    have : (combine_hash_blocks (b1 :: b2 :: rest) iv).2 = reduce_iv iv b1 b2 := by
      simp [combine_hash_blocks, pair_ivs]
    rw [this]
    exact (reduce_iv_good iv b1 b2).1
  | [b] => simpa [combine_hash_blocks, pair_ivs] using hiv
  | [] => simpa [combine_hash_blocks, pair_ivs] using hiv

theorem trace_processed_length (hs : List (List Nat)) (iv iv2 : List Nat)
    (r : List (List Nat)) (h : process_blocks (combine_hash_blocks hs iv).1 iv2 = some r) :
    r.length = (hs.length + 1) / 2 := by
  have h1 := process_blocks_length _ _ _ h
  have h2 : ((combine_hash_blocks hs iv).1).length = (hs.length + 1) / 2 := by
    simp [combine_hash_blocks, pair_blocks_length]
  omega

theorem trace_round_progress (hs : List (List Nat)) (iv : List Nat)
    (h2 : 2 ≤ hs.length) (hg : ∀ h ∈ hs, good_cv h) (hiv : iv.length = 8) :
    ∃ hs', reduce_round hs iv = some (hs', (combine_hash_blocks hs iv).2) ∧
      (∀ h ∈ hs', good_cv h) ∧ ((combine_hash_blocks hs iv).2).length = 8 ∧
      hs' ≠ [] ∧ hs'.length < hs.length := by
  have hblocks : (combine_hash_blocks hs iv).1 = pair_blocks hs := rfl
  have hlens : ∀ blk ∈ (combine_hash_blocks hs iv).1, blk.length = 64 ∨ blk.length = 32 := by
    rw [hblocks]; exact pair_blocks_len64or32 hs hg
  have hivlen := trace_combine_iv_length hs iv hiv
  obtain ⟨r, hr⟩ := Option.isSome_iff_exists.mp
    (process_blocks_isSome _ ((combine_hash_blocks hs iv).2) hlens)
  have hrlen : r.length = (hs.length + 1) / 2 := trace_processed_length hs iv _ r hr
  refine ⟨r, ?_, ?_, hivlen, ?_, by omega⟩
  · simp [reduce_round, hr]
  · intro x hx
    obtain ⟨blk, hblk, hpb⟩ := process_blocks_mem _ _ _ hr x hx
    refine process_block_good blk _ ?_ hivlen x hpb
    rw [hblocks] at hblk
    exact pair_blocks_bytes_lt hs blk hblk
  · have : 1 ≤ r.length := by omega
    exact List.ne_nil_of_length_pos (by omega)

end sha256

namespace padding

theorem combine_iv_length (hs : List (List Nat)) (iv : List Nat) (hiv : iv.length = 8) :
    ((combine_hash_blocks hs iv).2).length = 8 := by
  rw [combine_hash_blocks]
  by_cases h2 : 2 ≤ hs.length
  · simp only [if_pos h2]
    exact (reduce_iv_good iv _ _).1
  · simp only [if_neg h2]
    exact hiv

theorem processed_length (hs : List (List Nat)) (iv iv2 : List Nat)
    (r : List (List Nat)) (h : process_blocks (combine_hash_blocks hs iv).1 iv2 = some r) :
    r.length = hs.length / 2 := by
  have h1 := process_blocks_length _ _ _ h
  have h2 : ((combine_hash_blocks hs iv).1).length = (hs.tail.length + 1) / 2 := by
    simp [combine_hash_blocks, pair_blocks_length]
  have h3 : hs.tail.length = hs.length - 1 := by simp
  omega

theorem round_progress (hs : List (List Nat)) (iv : List Nat)
    (h2 : 2 ≤ hs.length) (hg : ∀ h ∈ hs, good_cv h) (hiv : iv.length = 8) :
    ∃ hs', reduce_round hs iv = some (hs', (combine_hash_blocks hs iv).2) ∧
      (∀ h ∈ hs', good_cv h) ∧ ((combine_hash_blocks hs iv).2).length = 8 ∧
      hs' ≠ [] ∧ hs'.length < hs.length := by
  have hblocks : (combine_hash_blocks hs iv).1 = pair_blocks hs.tail := rfl
  have hgt : ∀ h ∈ hs.tail, good_cv h := fun h hh => hg h (List.mem_of_mem_tail hh)
  have hlens : ∀ blk ∈ (combine_hash_blocks hs iv).1, blk.length = 64 ∨ blk.length = 32 := by
    rw [hblocks]; exact pair_blocks_len64or32 hs.tail hgt
  have hivlen := combine_iv_length hs iv hiv
  obtain ⟨r, hr⟩ := Option.isSome_iff_exists.mp
    (process_blocks_isSome _ ((combine_hash_blocks hs iv).2) hlens)
  have hrlen : r.length = hs.length / 2 := processed_length hs iv _ r hr
  refine ⟨r, ?_, ?_, hivlen, ?_, by omega⟩
  · simp [reduce_round, hr]
  · intro x hx
    obtain ⟨blk, hblk, hpb⟩ := process_blocks_mem _ _ _ hr x hx
    refine process_block_good blk _ ?_ hivlen x hpb
    rw [hblocks] at hblk
    exact pair_blocks_bytes_lt hs.tail blk hblk
  · exact List.ne_nil_of_length_pos (by omega)

end padding

/-! ## Loop-level lemmas -/

namespace padding

theorem reduce_loop_short (fuel : Nat) (hs : List (List Nat)) (iv : List Nat)
    (h : hs.length ≤ 1) : reduce_loop fuel hs iv = hs.head? := by
  cases fuel <;> simp [reduce_loop, h]

theorem reduce_loop_step (f : Nat) (hs : List (List Nat)) (iv : List Nat)
    (h : ¬ hs.length ≤ 1) :
    reduce_loop (f + 1) hs iv =
      match reduce_round hs iv with
      | none => none
      | some (new_hs, new_iv) => reduce_loop f new_hs new_iv := by
  simp [reduce_loop, h]

theorem reduce_round_shrink (hs : List (List Nat)) (iv : List Nat)
    (h2 : 2 ≤ hs.length) (hs' : List (List Nat)) (iv' : List Nat)
    (h : reduce_round hs iv = some (hs', iv')) : hs'.length < hs.length := by
  rw [reduce_round] at h
  cases hp : process_blocks (combine_hash_blocks hs iv).1 (combine_hash_blocks hs iv).2 with
  | none => rw [hp] at h; simp at h
  | some r =>
    rw [hp] at h
    simp only [Option.some_inj, Prod.mk.injEq] at h
    obtain ⟨h1, h2⟩ := h
    have h3 := processed_length hs iv _ r hp
    have h4 : hs'.length = r.length := by rw [h1]
    omega

theorem reduce_loop_fuel_aux (n : Nat) :
    ∀ (hs : List (List Nat)) (iv : List Nat) (fuel : Nat), hs.length ≤ n →
      hs.length ≤ fuel → reduce_loop fuel hs iv = reduce_loop hs.length hs iv := by
  induction n with
  | zero =>
    intro hs iv fuel h0 hf
    rw [reduce_loop_short fuel hs iv (by omega), reduce_loop_short _ hs iv (by omega)]
  | succ n ih =>
    intro hs iv fuel hn hf
    by_cases hs1 : hs.length ≤ 1
    · rw [reduce_loop_short fuel hs iv hs1, reduce_loop_short _ hs iv hs1]
    · cases fuel with
      | zero => omega
      | succ f =>
        cases hL : hs.length with
        | zero => omega
        | succ m =>
          rw [reduce_loop_step f hs iv hs1, reduce_loop_step m hs iv (by omega)]
          cases hrr : reduce_round hs iv with
          | none => simp
          | some p =>
            obtain ⟨hs', iv'⟩ := p
            have hlt : hs'.length < hs.length :=
              reduce_round_shrink hs iv (by omega) hs' iv' hrr
            simp only
            rw [ih hs' iv' f (by omega) (by omega), ih hs' iv' m (by omega) (by omega)]

theorem reduce_loop_fuel_irrel (hs : List (List Nat)) (iv : List Nat) (fuel : Nat)
    (hf : hs.length ≤ fuel) : reduce_loop fuel hs iv = reduce_loop hs.length hs iv :=
  reduce_loop_fuel_aux hs.length hs iv fuel le_rfl hf

theorem reduce_loop_isSome :
    ∀ (fuel : Nat) (hs : List (List Nat)) (iv : List Nat), hs.length ≤ fuel →
      hs ≠ [] → (∀ h ∈ hs, good_cv h) → iv.length = 8 →
      (reduce_loop fuel hs iv).isSome := by
  intro fuel
  induction fuel with
  | zero =>
    intro hs iv hf hne hg hiv
    exact absurd (List.length_eq_zero.mp (by omega)) hne
  | succ f ih =>
    intro hs iv hf hne hg hiv
    by_cases hs1 : hs.length ≤ 1
    · rw [reduce_loop_short _ hs iv hs1]
      cases hs with
      | nil => exact absurd rfl hne
      | cons x t => simp
    · obtain ⟨hs', hrr, hg', hiv', hne', hlt⟩ :=
        round_progress hs iv (by omega) hg hiv
      rw [reduce_loop_step f hs iv hs1, hrr]
      exact ih hs' _ (by omega) hne' hg' hiv'

end padding

namespace sha256

theorem reduce_loop_trace_short (fuel : Nat) (hs : List (List Nat)) (iv : List Nat)
    (n : Nat) (h : hs.length ≤ 1) :
    reduce_loop_trace fuel hs iv n = (hs.head?).map (fun x => (x, [])) := by
  cases fuel <;> simp [reduce_loop_trace, h]

theorem trace_reduce_round_shrink (hs : List (List Nat)) (iv : List Nat)
    (h2 : 2 ≤ hs.length) (hs' : List (List Nat)) (iv' : List Nat)
    (h : reduce_round hs iv = some (hs', iv')) : hs'.length < hs.length := by
  rw [reduce_round] at h
  cases hp : process_blocks (combine_hash_blocks hs iv).1 (combine_hash_blocks hs iv).2 with
  | none => rw [hp] at h; simp at h
  | some r =>
    rw [hp] at h
    simp only [Option.some_inj, Prod.mk.injEq] at h
    obtain ⟨h1, h2⟩ := h
    have h3 := trace_processed_length hs iv _ r hp
    have h4 : hs'.length = r.length := by rw [h1]
    omega

theorem reduce_loop_trace_step (f : Nat) (hs : List (List Nat)) (iv : List Nat)
    (n : Nat) (h : ¬ hs.length ≤ 1) :
    reduce_loop_trace (f + 1) hs iv n =
      match process_blocks (combine_hash_blocks hs iv).1 (combine_hash_blocks hs iv).2 with
      | none => none
      | some new_hs =>
        match reduce_loop_trace f new_hs (combine_hash_blocks hs iv).2 (n + 1) with
        | none => none
        | some (final, rest) =>
          some (final,
            { round := n, inputHashOutputs := hs,
              computedNewIV := (combine_hash_blocks hs iv).2,
              newBlocks := (combine_hash_blocks hs iv).1,
              outputHashOutputs := new_hs } :: rest) := by
  simp only [reduce_loop_trace, if_neg h]

theorem reduce_loop_trace_fuel_aux (n : Nat) :
    ∀ (hs : List (List Nat)) (iv : List Nat) (rn fuel : Nat), hs.length ≤ n →
      hs.length ≤ fuel →
      reduce_loop_trace fuel hs iv rn = reduce_loop_trace hs.length hs iv rn := by
  induction n with
  | zero =>
    intro hs iv rn fuel h0 hf
    rw [reduce_loop_trace_short fuel hs iv rn (by omega),
      reduce_loop_trace_short _ hs iv rn (by omega)]
  | succ n ih =>
    intro hs iv rn fuel hn hf
    by_cases hs1 : hs.length ≤ 1
    · rw [reduce_loop_trace_short fuel hs iv rn hs1,
        reduce_loop_trace_short _ hs iv rn hs1]
    · cases fuel with
      | zero => omega
      | succ f =>
        cases hL : hs.length with
        | zero => omega
        | succ m =>
          rw [reduce_loop_trace_step f hs iv rn hs1,
            reduce_loop_trace_step m hs iv rn (by omega)]
          cases hp : process_blocks (combine_hash_blocks hs iv).1
              (combine_hash_blocks hs iv).2 with
          | none => simp
          | some new_hs =>
            have hlt : new_hs.length < hs.length := by
              have := trace_processed_length hs iv _ new_hs hp
              omega
            simp only
            rw [ih new_hs _ (rn + 1) f (by omega) (by omega),
              ih new_hs _ (rn + 1) m (by omega) (by omega)]

theorem reduce_loop_trace_fuel_irrel (hs : List (List Nat)) (iv : List Nat)
    (rn fuel : Nat) (hf : hs.length ≤ fuel) :
    reduce_loop_trace fuel hs iv rn = reduce_loop_trace hs.length hs iv rn :=
  reduce_loop_trace_fuel_aux hs.length hs iv rn fuel le_rfl hf

theorem reduce_loop_trace_isSome :
    ∀ (fuel : Nat) (hs : List (List Nat)) (iv : List Nat) (rn : Nat),
      hs.length ≤ fuel → hs ≠ [] → (∀ h ∈ hs, good_cv h) → iv.length = 8 →
      (reduce_loop_trace fuel hs iv rn).isSome := by
  intro fuel
  induction fuel with
  | zero =>
    intro hs iv rn hf hne hg hiv
    exact absurd (List.length_eq_zero.mp (by omega)) hne
  | succ f ih =>
    intro hs iv rn hf hne hg hiv
    by_cases hs1 : hs.length ≤ 1
    · rw [reduce_loop_trace_short _ hs iv rn hs1]
      cases hs with
      | nil => exact absurd rfl hne
      | cons x t => simp
    · obtain ⟨hs', hrr, hg', hiv', hne', hlt⟩ :=
        trace_round_progress hs iv (by omega) hg hiv
      rw [reduce_loop_trace_step f hs iv rn hs1]
      have hp : process_blocks (combine_hash_blocks hs iv).1
          (combine_hash_blocks hs iv).2 = some hs' := by
        rw [reduce_round] at hrr
        cases hp2 : process_blocks (combine_hash_blocks hs iv).1
            (combine_hash_blocks hs iv).2 with
        | none => rw [hp2] at hrr; simp at hrr
        | some r =>
          rw [hp2] at hrr
          simp only [Option.some_inj, Prod.mk.injEq] at hrr
          rw [hrr.1]
      rw [hp]
      have hrec := ih hs' _ (rn + 1) (by omega) hne' hg' hiv'
      cases hrl : reduce_loop_trace f hs' (combine_hash_blocks hs iv).2 (rn + 1) with
      | none => rw [hrl] at hrec; simp at hrec
      | some p =>
        obtain ⟨final, rest⟩ := p
        simp [hrl]

end sha256

/-! ## Lemmas about padding and splitting -/

theorem pad_zero_count_lt (n : Nat) : pad_zero_count n < 64 := by
  unfold pad_zero_count
  omega

theorem pad_zero_count_mod (n : Nat) : (n + pad_zero_count n) % 64 = 56 := by
  unfold pad_zero_count
  omega

theorem sha256_pad_eq (m : List Nat) :
    sha256_pad m =
      m ++ 0x80 :: (List.replicate (pad_zero_count (m.length + 1)) 0 ++
        pack_u64 (m.length * 8)) := by
  simp [sha256_pad, List.append_assoc]

theorem sha256_pad_length (m : List Nat) :
    (sha256_pad m).length = m.length + 1 + pad_zero_count (m.length + 1) + 8 := by
  rw [sha256_pad_eq]
  simp [pack_u64]
  omega

theorem sha256_pad_length_mod (m : List Nat) : (sha256_pad m).length % 64 = 0 := by
  rw [sha256_pad_length]
  have := pad_zero_count_mod (m.length + 1)
  omega

theorem sha256_pad_length_pos (m : List Nat) : 0 < (sha256_pad m).length := by
  rw [sha256_pad_length]
  omega

theorem split_blocks_single (l : List Nat) (h : l.length = 64) :
    split_blocks l = [l] := by
  have ht : l.take 64 = l := List.take_of_length_le (by omega)
  rw [split_blocks, h]
  norm_num [List.range_succ, ht]

theorem split_blocks_double (l : List Nat) (h : l.length = 128) :
    split_blocks l = [l.take 64, l.drop 64] := by
  have hd : (l.drop 64).take 64 = l.drop 64 := List.take_of_length_le (by simp [h])
  rw [split_blocks, h]
  norm_num [List.range_succ, hd]

theorem split_blocks_ne_nil (l : List Nat) (h : 0 < l.length) :
    split_blocks l ≠ [] := by
  simp only [split_blocks, ne_eq, List.map_eq_nil_iff, List.range_eq_nil]
  omega

/-! ## The single-block collapse -/

theorem single_block_digest (m iv : List Nat) (h : (sha256_pad m).length = 64) :
    padding.tree_reduce_parallel m iv =
      some (words_to_bytes (sha256_compress_block (sha256_pad m) iv)) := by
  simp only [padding.tree_reduce_parallel]
  rw [split_blocks_single _ h]
  simp [padding.reduce_loop_short]

theorem single_block_trace (m iv : List Nat) (h : (sha256_pad m).length = 64) :
    sha256.tree_reduce_parallel_trace m iv =
      some { padded := sha256_pad m, blocks := [sha256_pad m],
             initialHashOutputs := [sha256_compress_block (sha256_pad m) iv],
             rounds := [],
             finalDigest := words_to_bytes (sha256_compress_block (sha256_pad m) iv) } := by
  simp only [sha256.tree_reduce_parallel_trace]
  rw [split_blocks_single _ h]
  simp [sha256.reduce_loop_trace_short]

/-! ## The specification-level compression function

Written from the spec's words (section 4.2): the message-schedule
recurrence as a recursive function, named Ch/Maj/Sigma functions, 64
rounds, and the final feed-forward addition mod 2^32. -/

/-- Spec: choice function of the round update. -/
def Ch (e f g : Nat) : Nat := (e &&& f) ^^^ ((e ^^^ mask32) &&& g)

/-- Spec: majority function of the round update. -/
def Maj (a b c : Nat) : Nat := (a &&& b) ^^^ (a &&& c) ^^^ (b &&& c)

/-- Spec: the big Sigma0 rotation mix of the round update. -/
def bigSigma0 (a : Nat) : Nat :=
  right_rotate a 2 ^^^ right_rotate a 13 ^^^ right_rotate a 22

/-- Spec: the big Sigma1 rotation mix of the round update. -/
def bigSigma1 (e : Nat) : Nat :=
  right_rotate e 6 ^^^ right_rotate e 11 ^^^ right_rotate e 25

/-- Spec: the small sigma0 schedule mix. -/
def smallSigma0 (x : Nat) : Nat :=
  right_rotate x 7 ^^^ right_rotate x 18 ^^^ (x >>> 3)

/-- Spec: the small sigma1 schedule mix. -/
def smallSigma1 (x : Nat) : Nat :=
  right_rotate x 17 ^^^ right_rotate x 19 ^^^ (x >>> 10)

/-- Spec: the message schedule as a recurrence over word indices:
`W[i] = M[i]` for `i < 16`, and for `i ≥ 16`
`W[i] = (W[i-16] + sigma0(W[i-15]) + W[i-7] + sigma1(W[i-2])) mod 2^32`. -/
def schedule_spec (M : Nat → Nat) (i : Nat) : Nat :=
  if h : i < 16 then M i
  else (schedule_spec M (i - 16) + smallSigma0 (schedule_spec M (i - 15)) +
        schedule_spec M (i - 7) + smallSigma1 (schedule_spec M (i - 2))) % 2 ^ 32
termination_by i
decreasing_by all_goals omega

/-- Spec: one round of the standard register update, phrased with the named
Ch/Maj/Sigma functions. -/
def round_step_spec (r : Regs) (ki : Nat) (wi : Nat) : Regs :=
  let temp1 := (r.h + bigSigma1 r.e + Ch r.e r.f r.g + ki + wi) &&& mask32
  let temp2 := (bigSigma0 r.a + Maj r.a r.b r.c) &&& mask32
  { a := (temp1 + temp2) &&& mask32, b := r.a, c := r.b, d := r.c,
    e := (r.d + temp1) &&& mask32, f := r.e, g := r.f, h := r.g }

/-- Spec: the full compression function — 16 big-endian words expanded by the
schedule recurrence, 64 rounds with the standard constants, and the final
feed-forward addition mod 2^32. -/
def compress_spec (block : List Nat) (iv : List Nat) : List Nat :=
  let M := fun t => (bytes_to_words block).getD t 0
  let r0 : Regs :=
    { a := iv.getD 0 0, b := iv.getD 1 0, c := iv.getD 2 0, d := iv.getD 3 0,
      e := iv.getD 4 0, f := iv.getD 5 0, g := iv.getD 6 0, h := iv.getD 7 0 }
  let rF := (List.range 64).foldl
    (fun r i => round_step_spec r (K.getD i 0) (schedule_spec M i)) r0
  List.zipWith (fun x val => (x + val) % 2 ^ 32) iv
    [rF.a, rF.b, rF.c, rF.d, rF.e, rF.f, rF.g, rF.h]

theorem round_step_spec_eq (r : Regs) (ki wi : Nat) :
    round_step_spec r ki wi = round_step r ki wi := rfl

theorem foldl_congr_mem {α β : Type} (f g : β → α → β) :
    ∀ (l : List α) (b : β), (∀ x ∈ l, ∀ acc, f acc x = g acc x) →
      l.foldl f b = l.foldl g b := by
  intro l
  induction l with
  | nil => simp
  | cons x t ih =>
    intro b hfg
    simp only [List.foldl_cons]
    rw [hfg x (by simp) b]
    exact ih _ (fun y hy acc => hfg y (by simp [hy]) acc)

theorem extend_schedule_length :
    ∀ (n : Nat) (W : List Nat), (extend_schedule W n).length = W.length + n := by
  intro n
  induction n with
  | zero => intro W; simp [extend_schedule]
  | succ n ih =>
    intro W
    show (extend_schedule (W ++ [next_w W]) n).length = W.length + (n + 1)
    rw [ih (W ++ [next_w W])]
    simp
    omega

theorem extend_schedule_getD :
    ∀ (n : Nat) (W0 W : List Nat), 16 ≤ W.length →
      (∀ i, i < W.length → W.getD i 0 = schedule_spec (fun t => W0.getD t 0) i) →
      ∀ i, i < W.length + n →
        (extend_schedule W n).getD i 0 = schedule_spec (fun t => W0.getD t 0) i := by
  intro n
  induction n with
  | zero =>
    intro W0 W h16 hW i hi
    exact hW i (by omega)
  | succ n ih =>
    intro W0 W h16 hW i hi
    show (extend_schedule (W ++ [next_w W]) n).getD i 0 = _
    apply ih W0 (W ++ [next_w W]) (by simp; omega) ?_ i (by simp; omega)
    intro j hj
    simp only [List.length_append, List.length_cons, List.length_nil] at hj
    by_cases hjW : j < W.length
    · rw [List.getD_append _ _ _ _ hjW]
      exact hW j hjW
    · have hjeq : j = W.length := by omega
      subst hjeq
      rw [List.getD_append_right _ _ _ _ (le_refl _)]
      simp only [Nat.sub_self, List.getD_cons_zero]
      simp only [next_w]
      rw [schedule_spec.eq_def, dif_neg (by omega : ¬ W.length < 16), mask32_eq]
      rw [hW (W.length - 16) (by omega), hW (W.length - 15) (by omega),
        hW (W.length - 7) (by omega), hW (W.length - 2) (by omega)]
      rfl

/-- Core equivalence used by the compression-function claim: the Python
compression coincides with the spec-level formulation. -/
theorem compress_block_refines (block iv : List Nat) (hb : block.length = 64)
    (_hiv : iv.length = 8) : sha256_compress_block block iv = compress_spec block iv := by
  have hM : (bytes_to_words block).length = 16 := by
    rw [bytes_to_words_length, hb]
  have hsched : ∀ i, i < 64 →
      (extend_schedule (bytes_to_words block) 48).getD i 0 =
        schedule_spec (fun t => (bytes_to_words block).getD t 0) i := by
    intro i hi
    apply extend_schedule_getD 48 (bytes_to_words block) (bytes_to_words block)
      (by omega) ?_ i (by omega)
    intro j hj
    rw [schedule_spec.eq_def, dif_pos (by omega : j < 16)]
  have hfold :
      (List.range 64).foldl
        (fun r i => round_step r (K.getD i 0)
          ((extend_schedule (bytes_to_words block) 48).getD i 0))
        { a := iv.getD 0 0, b := iv.getD 1 0, c := iv.getD 2 0, d := iv.getD 3 0,
          e := iv.getD 4 0, f := iv.getD 5 0, g := iv.getD 6 0, h := iv.getD 7 0 } =
      (List.range 64).foldl
        (fun r i => round_step_spec r (K.getD i 0)
          (schedule_spec (fun t => (bytes_to_words block).getD t 0) i))
        { a := iv.getD 0 0, b := iv.getD 1 0, c := iv.getD 2 0, d := iv.getD 3 0,
          e := iv.getD 4 0, f := iv.getD 5 0, g := iv.getD 6 0, h := iv.getD 7 0 } := by
    apply foldl_congr_mem
    intro x hx acc
    rw [hsched x (List.mem_range.mp hx), round_step_spec_eq]
  simp only [sha256_compress_block, compress_spec]
  rw [hfold]
  simp only [mask32_eq]

/-! ## Claim theorems -/

/-- Big-endian byte-sequence decoding (Python `int.from_bytes(b, "big")`),
used to state what the length field of the padding decodes to. -/
def bytes_to_nat_be (l : List Nat) : Nat := l.foldl (fun acc b => acc * 256 + b) 0

theorem pack_u64_decode (n : Nat) : bytes_to_nat_be (pack_u64 n) = n % 2 ^ 64 := by
  simp only [bytes_to_nat_be, pack_u64, List.foldl_cons, List.foldl_nil]
  omega

/-- C3: for every 64-byte block and 8-word chaining value,
`sha256_compress_block` equals the standard SHA-256 compression function:
the 16 big-endian words are expanded by the standard schedule recurrence,
64 rounds of the standard Sigma/Ch/Maj register update run with the standard
round constants, and each final register is added mod 2^32 to the
corresponding input chaining-value word (all captured by `compress_spec`,
which is written from the spec's words). -/
theorem claim_C3 (block iv : List Nat) (hb : block.length = 64) (hiv : iv.length = 8) :
    sha256_compress_block block iv = compress_spec block iv :=
  compress_block_refines block iv hb hiv

theorem claim_C3_witness :
    (List.replicate 64 0).length = 64 ∧ default_iv.length = 8 ∧
      sha256_compress_block (List.replicate 64 0) default_iv =
        compress_spec (List.replicate 64 0) default_iv :=
  ⟨by decide, by decide,
    claim_C3 (List.replicate 64 0) default_iv (by decide) (by decide)⟩

set_option maxRecDepth 100000 in
set_option maxHeartbeats 1000000 in
/-- Known-answer check: on the single padded block of the empty message with
the standard IV, the embedded compression function reproduces the real
SHA-256 digest of the empty string, validating the round-constant table,
the schedule, the rounds and the serialization against FIPS 180-4. -/
theorem compress_empty_known_vector :
    words_to_bytes (sha256_compress_block (sha256_pad []) default_iv) =
      [0xe3, 0xb0, 0xc4, 0x42, 0x98, 0xfc, 0x1c, 0x14, 0x9a, 0xfb, 0xf4, 0xc8,
       0x99, 0x6f, 0xb9, 0x24, 0x27, 0xae, 0x41, 0xe4, 0x64, 0x9b, 0x93, 0x4c,
       0xa4, 0x95, 0x99, 0x1b, 0x78, 0x52, 0xb8, 0x55] := by
  decide

/-- C5: for every byte string `m`, `sha256_pad m` has positive multiple-of-64
length, carries `0x80` at position `len(m)`, then the minimal number of zero
bytes making the length congruent to 56 mod 64 (`k < 64` together with the
congruence pins down that minimal count), and its last 8 bytes are the
big-endian encoding of `(len(m)*8) mod 2^64`. -/
theorem claim_C5 (m : List Nat) :
    (sha256_pad m).length % 64 = 0 ∧
    0 < (sha256_pad m).length ∧
    (sha256_pad m).getD m.length 0 = 0x80 ∧
    (∃ k, sha256_pad m = m ++ 0x80 :: (List.replicate k 0 ++ pack_u64 (m.length * 8)) ∧
      k < 64 ∧ (m.length + 1 + k) % 64 = 56) ∧
    bytes_to_nat_be ((sha256_pad m).drop ((sha256_pad m).length - 8)) =
      (m.length * 8) % 2 ^ 64 := by
  refine ⟨sha256_pad_length_mod m, sha256_pad_length_pos m, ?_, ?_, ?_⟩
  · rw [sha256_pad_eq, List.getD_append_right _ _ _ _ (le_refl _)]
    simp
  · refine ⟨pad_zero_count (m.length + 1), sha256_pad_eq m, pad_zero_count_lt _, ?_⟩
    have := pad_zero_count_mod (m.length + 1)
    omega
  · have hsplit : sha256_pad m =
        (m ++ 0x80 :: List.replicate (pad_zero_count (m.length + 1)) 0) ++
          pack_u64 (m.length * 8) := by
      rw [sha256_pad_eq]
      simp
    have hplen : (m ++ 0x80 :: List.replicate (pad_zero_count (m.length + 1)) 0).length =
        m.length + 1 + pad_zero_count (m.length + 1) := by
      simp
      omega
    have htot : (sha256_pad m).length =
        m.length + 1 + pad_zero_count (m.length + 1) + 8 := sha256_pad_length m
    rw [hsplit]
    have hdrop : ((m ++ 0x80 :: List.replicate (pad_zero_count (m.length + 1)) 0) ++
        pack_u64 (m.length * 8)).length - 8 =
        (m ++ 0x80 :: List.replicate (pad_zero_count (m.length + 1)) 0).length := by
      rw [hplen]
      rw [hsplit] at htot
      omega
    rw [hdrop, List.drop_left, pack_u64_decode]

theorem reduce_iv_getD (iv b1 b2 : List Nat) (i : Nat) (hi : i < 8) :
    (reduce_iv iv b1 b2).getD i 0 =
      (iv.getD i 0 + (b1.getD i 0 ^^^ b2.getD i 0)) % 2 ^ 32 := by
  have hlen : (reduce_iv iv b1 b2).length = 8 := (reduce_iv_good iv b1 b2).1
  rw [List.getD_eq_getElem _ _ (by omega)]
  simp [reduce_iv, mask32_eq]

/-- C4: in every round with at least two surviving values, the derived IV of
both controllers is `reduce_iv` of the round input's first two elements,
word-wise `(iv[i] + (first[i] xor second[i])) mod 2^32`; and every 64-byte
regrouped block processed in the round is compressed with that single
derived IV (later pairs do not derive their own). -/
theorem claim_C4 (hs : List (List Nat)) (iv : List Nat) (h2 : 2 ≤ hs.length) :
    ((sha256.combine_hash_blocks hs iv).2 = reduce_iv iv (hs.getD 0 []) (hs.getD 1 [])) ∧
    ((padding.combine_hash_blocks hs iv).2 = reduce_iv iv (hs.getD 0 []) (hs.getD 1 [])) ∧
    (∀ b1 b2 i, i < 8 → (reduce_iv iv b1 b2).getD i 0 =
      (iv.getD i 0 + (b1.getD i 0 ^^^ b2.getD i 0)) % 2 ^ 32) ∧
    (∀ r, process_blocks (sha256.combine_hash_blocks hs iv).1
        (sha256.combine_hash_blocks hs iv).2 = some r →
      ∀ k, k < ((sha256.combine_hash_blocks hs iv).1).length →
        (((sha256.combine_hash_blocks hs iv).1).getD k []).length = 64 →
        r.getD k [] = sha256_compress_block (((sha256.combine_hash_blocks hs iv).1).getD k [])
          ((sha256.combine_hash_blocks hs iv).2)) := by
  refine ⟨?_, ?_, ?_, ?_⟩
  · exact pair_ivs_headD iv hs h2
  · simp [padding.combine_hash_blocks, if_pos h2]
  · exact fun b1 b2 i hi => reduce_iv_getD iv b1 b2 i hi
  · intro r hr k hk h64
    have hpk := process_blocks_getD _ _ _ hr k hk
    rw [process_block, if_pos h64] at hpk
    simp only [Option.some_inj] at hpk
    rw [← hpk]

theorem claim_C4_witness :
    (sha256.combine_hash_blocks [List.replicate 8 7, List.replicate 8 9] default_iv).2 =
      reduce_iv default_iv (List.replicate 8 7) (List.replicate 8 9) :=
  (claim_C4 [List.replicate 8 7, List.replicate 8 9] default_iv (by decide)).1

/-- C2 as stated is false for padding.py's controller: with a three-element
round input, the round's regrouped blocks are not the claimed
"pair (0,1) then pass the last element through" — the first element is
dropped and the remaining two are paired instead. -/
theorem claim_C2_counterexample :
    ¬ ((padding.combine_hash_blocks
        [List.replicate 8 1, List.replicate 8 2, List.replicate 8 3] default_iv).1 =
      [words_to_bytes (List.replicate 8 1) ++ words_to_bytes (List.replicate 8 2),
       words_to_bytes (List.replicate 8 3)]) := by
  decide

/-- C2 (amended): the claimed regrouping — adjacent pairs (0,1), (2,3), … of
the round's input in original order, with an odd last element passing
through the round with its 8 words unchanged — holds for the trace
controller (`sha256.py`); the plain controller (`padding.py`) first drops
the first element of the round input and then pairs the shifted list in
exactly that way. -/
theorem claim_C2 :
    (∀ (hs : List (List Nat)) (iv : List Nat),
      ((sha256.combine_hash_blocks hs iv).1).length = (hs.length + 1) / 2) ∧
    (∀ (hs : List (List Nat)) (iv : List Nat) (k : Nat), 2 * k + 1 < hs.length →
      ((sha256.combine_hash_blocks hs iv).1).getD k [] =
        words_to_bytes (hs.getD (2 * k) []) ++ words_to_bytes (hs.getD (2 * k + 1) [])) ∧
    (∀ (hs : List (List Nat)) (iv : List Nat), hs.length % 2 = 1 →
      ((sha256.combine_hash_blocks hs iv).1).getD (hs.length / 2) [] =
        words_to_bytes (hs.getD (hs.length - 1) [])) ∧
    (∀ (h iv' : List Nat), good_cv h → process_block (words_to_bytes h) iv' = some h) ∧
    (∀ (hs : List (List Nat)) (iv : List Nat),
      (padding.combine_hash_blocks hs iv).1 = (sha256.combine_hash_blocks hs.tail iv).1) := by
  refine ⟨?_, ?_, ?_, ?_, ?_⟩
  · intro hs iv
    exact pair_blocks_length hs
  · intro hs iv k hk
    exact pair_blocks_getD hs k hk
  · intro hs iv hodd
    exact pair_blocks_last hs hodd
  · intro h iv' hg
    exact process_block_passthrough h iv' hg
  · intro hs iv
    rfl

theorem claim_C2_witness :
    ((sha256.combine_hash_blocks
        [List.replicate 8 4, List.replicate 8 5, List.replicate 8 6] default_iv).1).getD 0 [] =
      words_to_bytes (List.replicate 8 4) ++ words_to_bytes (List.replicate 8 5) :=
  claim_C2.2.1 [List.replicate 8 4, List.replicate 8 5, List.replicate 8 6]
    default_iv 0 (by decide)

/-- C6: for every message whose padded form is one 64-byte block (including
the empty message, see the witness), both controllers return
`compress(pad(m), iv)` directly: no reduction round runs, the trace's
`rounds` list is empty, and no error path is taken (the results are
`some …`, never `none`). -/
theorem claim_C6 (m iv : List Nat) (h : (sha256_pad m).length = 64) :
    padding.tree_reduce_parallel m iv =
      some (words_to_bytes (sha256_compress_block (sha256_pad m) iv)) ∧
    sha256.tree_reduce_parallel_trace m iv =
      some { padded := sha256_pad m, blocks := [sha256_pad m],
             initialHashOutputs := [sha256_compress_block (sha256_pad m) iv],
             rounds := [],
             finalDigest := words_to_bytes (sha256_compress_block (sha256_pad m) iv) } :=
  ⟨single_block_digest m iv h, single_block_trace m iv h⟩

theorem claim_C6_witness :
    (sha256_pad []).length = 64 ∧
      padding.tree_reduce_parallel [] default_iv =
        some (words_to_bytes (sha256_compress_block (sha256_pad []) default_iv)) :=
  ⟨by decide, (claim_C6 [] default_iv (by decide)).1⟩

set_option maxRecDepth 100000 in
set_option maxHeartbeats 1000000 in
/-- C1 as stated is false: on the 56-byte message of `0x61` bytes (which pads
to two blocks), the plain digest of `padding.py` differs from the
trace-enabled digest of `sha256.py`, because the plain controller drops the
first Stage-1 output in its round while the trace controller pairs both. -/
theorem claim_C1_counterexample :
    ¬ (padding.tree_reduce_parallel (List.replicate 56 0x61) default_iv =
      Option.map sha256.TraceResult.finalDigest
        (sha256.tree_reduce_parallel_trace (List.replicate 56 0x61) default_iv)) := by
  decide

/-- C1 (amended): the trace/non-trace digest equivalence holds exactly on the
single-block domain — for every message whose padded form is one 64-byte
block, `padding.py`'s digest equals the `finalDigest` of `sha256.py`'s
trace computation; for longer messages the two controllers disagree (see
the counterexample). -/
theorem claim_C1 (m : List Nat) (h : (sha256_pad m).length = 64) :
    padding.tree_reduce_parallel m default_iv =
      Option.map sha256.TraceResult.finalDigest
        (sha256.tree_reduce_parallel_trace m default_iv) := by
  rw [single_block_digest m default_iv h, single_block_trace m default_iv h]
  rfl

theorem claim_C1_witness :
    (sha256_pad []).length = 64 ∧
      padding.tree_reduce_parallel [] default_iv =
        Option.map sha256.TraceResult.finalDigest
          (sha256.tree_reduce_parallel_trace [] default_iv) :=
  ⟨by decide, claim_C1 [] (by decide)⟩

/-- C7: for every message (and any 8-word IV), every block produced by a
round's regrouping is exactly 64 bytes (a pair) or exactly 32 bytes (a
passthrough carry), so the malformed-block error branch is unreachable:
both full computations always return `some`. -/
theorem claim_C7 (m iv : List Nat) (hiv : iv.length = 8) :
    (padding.tree_reduce_parallel m iv).isSome ∧
    (sha256.tree_reduce_parallel_trace m iv).isSome ∧
    (∀ hs : List (List Nat), (∀ h ∈ hs, good_cv h) →
      (∀ blk ∈ (sha256.combine_hash_blocks hs iv).1, blk.length = 64 ∨ blk.length = 32) ∧
      (∀ blk ∈ (padding.combine_hash_blocks hs iv).1, blk.length = 64 ∨ blk.length = 32)) := by
  have hpadpos := sha256_pad_length_pos m
  have hsne : split_blocks (sha256_pad m) ≠ [] := split_blocks_ne_nil _ hpadpos
  have hne : (split_blocks (sha256_pad m)).map (fun b => sha256_compress_block b iv) ≠ [] := by
    simp only [ne_eq, List.map_eq_nil_iff]
    exact hsne
  have hgood : ∀ h ∈ (split_blocks (sha256_pad m)).map (fun b => sha256_compress_block b iv),
      good_cv h := by
    intro h hh
    obtain ⟨b, _, hb⟩ := List.mem_map.mp hh
    rw [← hb]
    exact sha256_compress_block_good b iv hiv
  refine ⟨?_, ?_, ?_⟩
  · obtain ⟨x, hx⟩ := Option.isSome_iff_exists.mp
      (padding.reduce_loop_isSome _ _ _ le_rfl hne hgood hiv)
    simp only [padding.tree_reduce_parallel]
    rw [hx]
    rfl
  · simp only [sha256.tree_reduce_parallel_trace]
    have hloop := sha256.reduce_loop_trace_isSome
      ((split_blocks (sha256_pad m)).map (fun b => sha256_compress_block b iv)).length
      ((split_blocks (sha256_pad m)).map (fun b => sha256_compress_block b iv)) iv 0
      le_rfl hne hgood hiv
    cases hres : sha256.reduce_loop_trace
        ((split_blocks (sha256_pad m)).map (fun b => sha256_compress_block b iv)).length
        ((split_blocks (sha256_pad m)).map (fun b => sha256_compress_block b iv)) iv 0 with
    | none => rw [hres] at hloop; simp at hloop
    | some p =>
      obtain ⟨final, rounds⟩ := p
      simp
  · intro hs hg
    constructor
    · exact pair_blocks_len64or32 hs hg
    · exact pair_blocks_len64or32 hs.tail
        (fun x hx => hg x (List.mem_of_mem_tail hx))

theorem claim_C7_witness :
    (padding.tree_reduce_parallel [0x61, 0x62, 0x63] default_iv).isSome :=
  (claim_C7 [0x61, 0x62, 0x63] default_iv (by decide)).1

/-- C8: whenever at least two chaining values survive, one round of either
controller strictly shortens the list, and consequently the while-loops
terminate: any fuel at least the list length computes the same (stabilized)
result as fuel exactly the list length. -/
theorem claim_C8 (hs : List (List Nat)) (iv : List Nat) (h2 : 2 ≤ hs.length) :
    (∀ hs' iv', padding.reduce_round hs iv = some (hs', iv') → hs'.length < hs.length) ∧
    (∀ hs' iv', sha256.reduce_round hs iv = some (hs', iv') → hs'.length < hs.length) ∧
    (∀ fuel, hs.length ≤ fuel →
      padding.reduce_loop fuel hs iv = padding.reduce_loop hs.length hs iv) ∧
    (∀ fuel rn, hs.length ≤ fuel →
      sha256.reduce_loop_trace fuel hs iv rn = sha256.reduce_loop_trace hs.length hs iv rn) := by
  refine ⟨?_, ?_, ?_, ?_⟩
  · exact fun hs' iv' h => padding.reduce_round_shrink hs iv h2 hs' iv' h
  · exact fun hs' iv' h => sha256.trace_reduce_round_shrink hs iv h2 hs' iv' h
  · exact fun fuel hf => padding.reduce_loop_fuel_irrel hs iv fuel hf
  · exact fun fuel rn hf => sha256.reduce_loop_trace_fuel_irrel hs iv rn fuel hf

theorem claim_C8_witness :
    padding.reduce_loop 5 [List.replicate 8 10, List.replicate 8 11] default_iv =
      padding.reduce_loop 2 [List.replicate 8 10, List.replicate 8 11] default_iv :=
  (claim_C8 [List.replicate 8 10, List.replicate 8 11] default_iv (by decide)).2.2.1
    5 (by decide)

/-- C9: for every message padding to exactly two 64-byte blocks,
`padding.py`'s digest is exactly the Stage-1 compression of the second
block: the round drops the first Stage-1 output and passes the second
through unpaired, so the first block's content never reaches the digest. -/
theorem claim_C9 (m iv : List Nat) (h128 : (sha256_pad m).length = 128)
    (hiv : iv.length = 8) :
    padding.tree_reduce_parallel m iv =
      some (words_to_bytes (sha256_compress_block ((sha256_pad m).drop 64) iv)) := by
  simp only [padding.tree_reduce_parallel]
  rw [split_blocks_double _ h128]
  set c1 := sha256_compress_block ((sha256_pad m).take 64) iv with hc1
  set c2 := sha256_compress_block ((sha256_pad m).drop 64) iv with hc2
  simp only [List.map_cons, List.map_nil, List.length_cons, List.length_nil]
  have hgood2 : good_cv c2 := sha256_compress_block_good _ iv hiv
  have hblocks : (padding.combine_hash_blocks [c1, c2] iv).1 = [words_to_bytes c2] := rfl
  have hpb : process_block (words_to_bytes c2)
      ((padding.combine_hash_blocks [c1, c2] iv).2) = some c2 :=
    process_block_passthrough _ _ hgood2
  have hproc : process_blocks [words_to_bytes c2]
      ((padding.combine_hash_blocks [c1, c2] iv).2) = some [c2] := by
    simp [process_blocks, hpb]
  have hrr : padding.reduce_round [c1, c2] iv =
      some ([c2], (padding.combine_hash_blocks [c1, c2] iv).2) := by
    simp only [padding.reduce_round, hblocks, hproc]
  rw [show (0 + 1 + 1 : Nat) = 1 + 1 from rfl,
    padding.reduce_loop_step 1 [c1, c2] iv (by simp), hrr]
  show Option.map words_to_bytes
    (padding.reduce_loop 1 [c2] (padding.combine_hash_blocks [c1, c2] iv).2) =
      some (words_to_bytes c2)
  rw [padding.reduce_loop_short 1 [c2] _ (by simp)]
  rfl

set_option maxRecDepth 100000 in
theorem claim_C9_witness :
    (sha256_pad (List.replicate 56 0x61)).length = 128 ∧
      padding.tree_reduce_parallel (List.replicate 56 0x61) default_iv =
        some (words_to_bytes (sha256_compress_block
          ((sha256_pad (List.replicate 56 0x61)).drop 64) default_iv)) :=
  ⟨by decide, claim_C9 (List.replicate 56 0x61) default_iv (by decide) (by decide)⟩

/-- C10: every chaining value arising anywhere in the computation — Stage-1
compression outputs, derived IVs, compressed-pair outputs and passthrough
values (the members of any round's output list) — is a list of exactly 8
words each below 2^32, and such a value serializes to exactly 32 bytes. -/
theorem claim_C10 (iv : List Nat) (hiv : iv.length = 8) :
    (∀ block, good_cv (sha256_compress_block block iv)) ∧
    (∀ b1 b2, good_cv (reduce_iv iv b1 b2)) ∧
    (∀ h, good_cv h → (words_to_bytes h).length = 32) ∧
    (∀ hs hs' iv', (∀ x ∈ hs, good_cv x) →
      sha256.reduce_round hs iv = some (hs', iv') →
      (∀ x ∈ hs', good_cv x) ∧ iv'.length = 8 ∧ (2 ≤ hs.length → good_cv iv')) ∧
    (∀ hs hs' iv', (∀ x ∈ hs, good_cv x) →
      padding.reduce_round hs iv = some (hs', iv') →
      (∀ x ∈ hs', good_cv x) ∧ iv'.length = 8 ∧ (2 ≤ hs.length → good_cv iv')) := by
  refine ⟨fun block => sha256_compress_block_good block iv hiv,
    fun b1 b2 => reduce_iv_good iv b1 b2,
    fun h hg => words_to_bytes_32 h hg, ?_, ?_⟩
  · intro hs hs' iv' hg hrr
    rw [sha256.reduce_round] at hrr
    cases hp : process_blocks (sha256.combine_hash_blocks hs iv).1
        (sha256.combine_hash_blocks hs iv).2 with
    | none => rw [hp] at hrr; simp at hrr
    | some r =>
      rw [hp] at hrr
      simp only [Option.some_inj, Prod.mk.injEq] at hrr
      obtain ⟨hr1, hr2⟩ := hrr
      refine ⟨?_, ?_, ?_⟩
      · intro x hx
        obtain ⟨blk, hblk, hpbx⟩ := process_blocks_mem _ _ _ hp x (by rw [hr1]; exact hx)
        exact process_block_good blk _ (pair_blocks_bytes_lt hs blk hblk)
          (sha256.trace_combine_iv_length hs iv hiv) x hpbx
      · rw [← hr2]
        exact sha256.trace_combine_iv_length hs iv hiv
      · intro h2
        rw [← hr2]
        show good_cv ((pair_ivs iv hs).headD iv)
        rw [pair_ivs_headD iv hs h2]
        exact reduce_iv_good iv _ _
  · intro hs hs' iv' hg hrr
    rw [padding.reduce_round] at hrr
    cases hp : process_blocks (padding.combine_hash_blocks hs iv).1
        (padding.combine_hash_blocks hs iv).2 with
    | none => rw [hp] at hrr; simp at hrr
    | some r =>
      rw [hp] at hrr
      simp only [Option.some_inj, Prod.mk.injEq] at hrr
      obtain ⟨hr1, hr2⟩ := hrr
      refine ⟨?_, ?_, ?_⟩
      · intro x hx
        obtain ⟨blk, hblk, hpbx⟩ := process_blocks_mem _ _ _ hp x (by rw [hr1]; exact hx)
        exact process_block_good blk _ (pair_blocks_bytes_lt hs.tail blk hblk)
          (padding.combine_iv_length hs iv hiv) x hpbx
      · rw [← hr2]
        exact padding.combine_iv_length hs iv hiv
      · intro h2
        rw [← hr2]
        simp only [padding.combine_hash_blocks, if_pos h2]
        exact reduce_iv_good iv _ _

theorem claim_C10_witness : good_cv (sha256_compress_block [] default_iv) :=
  (claim_C10 default_iv (by decide)).1 []
